import Mathlib

/-!
Shallow embedding of the `higher` crate: the `Functor`, `Pure` and
`Bifunctor` trait implementations from `src/prelude/src/functor.rs`,
`src/prelude/src/pure.rs` and `src/lib/src/bifunctor.rs`.

Containers are modelled by their observable element sequences:
`Vec`, `VecDeque` and `LinkedList` by their elements in iteration order,
a fixed-size array `[A; N]` by a length-indexed list, and the two map
types by their entry list in iteration order.  Machine integers play no
role in the claims (all transformation functions are caller supplied),
so element types stay abstract.
-/

namespace Higher

/-- Rust `Result<A, E>` with variants `Ok` and `Err`. -/
inductive Result (A E : Type) where
  | ok : A → Result A E
  | err : E → Result A E
deriving DecidableEq, Repr

/-- Rust `Vec<A>`, modelled by its elements front to back. -/
structure Vec (A : Type) where
  data : List A
deriving DecidableEq, Repr

/-- Rust `std::collections::VecDeque<A>`, elements front to back. -/
structure VecDeque (A : Type) where
  data : List A
deriving DecidableEq, Repr

/-- Rust `std::collections::LinkedList<A>`, elements front to back. -/
structure LinkedList (A : Type) where
  data : List A
deriving DecidableEq, Repr

/-- Rust fixed-size array `[A; N]`: a list of exactly `N` elements. -/
def FArray (A : Type) (N : Nat) := { l : List A // l.length = N }

/-- Rust `HashMap<K, V>`: the entry list in the map's (unspecified but
deterministic) iteration order; well-formed maps have no duplicate keys. -/
structure HashMapM (K V : Type) where
  entries : List (K × V)
deriving DecidableEq, Repr

/-- Rust `BTreeMap<K, V>`: the entry list in iteration order, which for a
well-formed tree map is strictly sorted by key. -/
structure BTreeMapM (K V : Type) where
  entries : List (K × V)
deriving DecidableEq, Repr

/-- Rust `std::collections::HashSet<A>`: elements in iteration order. -/
structure HashSetM (A : Type) where
  elems : List A
deriving DecidableEq, Repr

/-- Rust `std::collections::BTreeSet<A>`: elements in iteration order. -/
structure BTreeSetM (A : Type) where
  elems : List A
deriving DecidableEq, Repr

/-- Rust `std::collections::BinaryHeap<A>`: the stored elements (internal
arrangement is heap order; only the multiset of elements is observable). -/
structure BinaryHeapM (A : Type) where
  elems : List A
deriving DecidableEq, Repr

/-! ## Functor implementations (`src/prelude/src/functor.rs`)

The `impl_fmap_from_iter` macro expands to
`self.into_iter().map(f).collect()`, which for `Vec`, `VecDeque` and
`LinkedList` rebuilds the container from the mapped elements in iteration
order: on the list model this is exactly `List.map`. -/

/-- Embeds `impl Functor for Option`: `self.map(f)`. -/
def optionFmap (o : Option A) (f : A → B) : Option B :=
  match o with
  | none => none
  | some a => some (f a)

/-- Embeds `impl Functor for Result<A, E>`: `self.map(f)` maps the `Ok`
payload and leaves `Err` untouched. -/
def resultFmap (r : Result A E) (f : A → B) : Result B E :=
  match r with
  | .ok a => .ok (f a)
  | .err e => .err e

/-- Embeds `impl Functor for Vec`: `self.into_iter().map(f).collect()`. -/
def vecFmap (v : Vec A) (f : A → B) : Vec B :=
  ⟨v.data.map f⟩

/-- Embeds `impl Functor for VecDeque`: `self.into_iter().map(f).collect()`. -/
def vecDequeFmap (v : VecDeque A) (f : A → B) : VecDeque B :=
  ⟨v.data.map f⟩

/-- Embeds `impl Functor for LinkedList`: `self.into_iter().map(f).collect()`. -/
def linkedListFmap (v : LinkedList A) (f : A → B) : LinkedList B :=
  ⟨v.data.map f⟩

/-! ### The fixed-size array `fmap` loop

The `[A; N]` implementation writes into a `MaybeUninit<[B; N]>` arena:
a raw pointer starts at slot 0 and, for each input element in iteration
order, writes `f(item)` to the current slot and advances by one; at the
end `assume_init` reinterprets the arena as an initialized array.
`writeLoop f items i` records the `(slot index, value)` writes the loop
performs starting from slot `i`; `readSlot` reads the arena at one slot
(`none` when the slot was never written); `assumeInit` succeeds exactly
when all `N` slots read back initialized. -/

/-- Write trace of the array `fmap` loop from slot `i`: one
`(index, f item)` write per input item, indices consecutive. -/
def writeLoop (f : A → B) : List A → Nat → List (Nat × B)
  | [], _ => []
  | a :: t, i => (i, f a) :: writeLoop f t (i + 1)

/-- Content of arena slot `j` after the given writes (`none` if never
written). -/
def readSlot (writes : List (Nat × B)) (j : Nat) : Option B :=
  (writes.find? (fun p => p.1 = j)).map Prod.snd

/-- Embeds `MaybeUninit::assume_init` on the arena: reads the `N` slots in
order and succeeds only when every one of them was initialized. -/
def assumeInit (N : Nat) (writes : List (Nat × B)) : Option (List B) :=
  let vals := (List.range N).filterMap (readSlot writes)
  if vals.length = N then some vals else none

theorem writeLoop_fst (f : A → B) (l : List A) (i : Nat) :
    (writeLoop f l i).map Prod.fst = List.range' i l.length := by
  induction l generalizing i with
  | nil => rfl
  | cons a t ih => simp [writeLoop, List.range', ih]

theorem writeLoop_snd (f : A → B) (l : List A) (i : Nat) :
    (writeLoop f l i).map Prod.snd = l.map f := by
  induction l generalizing i with
  | nil => rfl
  | cons a t ih => simp [writeLoop, ih]

theorem readSlot_writeLoop (f : A → B) (l : List A) (i j : Nat) :
    readSlot (writeLoop f l i) (i + j) = (l.map f)[j]? := by
  induction l generalizing i j with
  | nil => simp [writeLoop, readSlot]
  | cons a t ih =>
    cases j with
    | zero => simp [writeLoop, readSlot, List.find?]
    | succ j =>
      have hne : ¬ (i = i + (j + 1)) := by omega
      have h2 : i + 1 + j = i + (j + 1) := by omega
      have hd : (decide (i = i + (j + 1))) = false := decide_eq_false hne
      simp only [writeLoop, readSlot, List.find?, hd]
      have hih := ih (i + 1) j
      rw [h2] at hih
      simpa [readSlot] using hih

theorem readSlot_writeLoop_zero (f : A → B) (l : List A) (j : Nat) :
    readSlot (writeLoop f l 0) j = (l.map f)[j]? := by
  have := readSlot_writeLoop f l 0 j
  simpa using this

theorem assumeInit_writeLoop (f : A → B) (l : List A) :
    assumeInit l.length (writeLoop f l 0) = some (l.map f) := by
  have hread : ∀ j, readSlot (writeLoop f l 0) j = (l.map f)[j]? :=
    readSlot_writeLoop_zero f l
  have hfm : (List.range l.length).filterMap (readSlot (writeLoop f l 0))
      = (List.range l.length).filterMap (fun j => (l.map f)[j]?) :=
    List.filterMap_congr (fun j _ => hread j)
  have hlen : (l.map f).length = l.length := List.length_map l f
  have hgen : ∀ (m : List B), (List.range m.length).filterMap (fun j => m[j]?) = m := by
    intro m
    induction m with
    | nil => rfl
    | cons b t ih =>
      rw [List.length_cons, List.range_succ_eq_map, List.filterMap_cons, List.filterMap_map]
      have hcomp : ((fun j => (b :: t)[j]?) ∘ Nat.succ) = fun j => t[j]? := by
        funext j
        simp [Function.comp]
      rw [hcomp, ih]
      simp
  have hall : (List.range l.length).filterMap (fun j => (l.map f)[j]?) = l.map f := by
    rw [← hlen]
    exact hgen (l.map f)
  have hmain : (List.range l.length).filterMap (readSlot (writeLoop f l 0)) = l.map f :=
    hfm.trans hall
  simp only [assumeInit]
  rw [hmain, if_pos hlen]

/-- Embeds `impl Functor for [A; N]`: run the write loop over the input
elements and extract the arena contents via `assume_init`. -/
def arrayFmap (a : FArray A N) (f : A → B) : FArray B N :=
  ⟨(assumeInit N (writeLoop f a.val 0)).getD [],
   by
     obtain ⟨l, hl⟩ := a
     subst hl
     simp [assumeInit_writeLoop]⟩

/-! ## Instrumented traces for the Functor contract

`mapWithTrace` instruments `self.into_iter().map(f)` being drained by
`collect`: the adapter calls `f` once on each element the iterator
yields, in iteration order.  The second component records the arguments
`f` was called on, in call order. -/

/-- Outputs of the `map` adapter together with the arguments `f` was
called on, in call order. -/
def mapWithTrace (f : A → B) : List A → List B × List A
  | [] => ([], [])
  | a :: t =>
    let r := mapWithTrace f t
    (f a :: r.1, a :: r.2)

theorem mapWithTrace_fst (f : A → B) (l : List A) :
    (mapWithTrace f l).1 = l.map f := by
  induction l with
  | nil => rfl
  | cons a t ih => simp [mapWithTrace, ih]

theorem mapWithTrace_snd (f : A → B) (l : List A) :
    (mapWithTrace f l).2 = l := by
  induction l with
  | nil => rfl
  | cons a t ih => simp [mapWithTrace, ih]

/-! ## The `f_into_iter` default method

`Functor::f_into_iter` builds `store = Rc::new(RefCell::new(Vec::new()))`
(strong count 1), clones it into `istore` (strong count 2), runs
`self.fmap(move |a| istore.borrow_mut().push(a))` — each call pushes one
element into the shared buffer and the closure owning `istore` is dropped
when `fmap` returns (strong count back to 1) — and finally
`Rc::try_unwrap(store)`, which succeeds iff the strong count is 1 and
otherwise hits the `unreachable!()` arm. -/

/-- Reference-counted store state: the `Rc` strong count and the buffered
elements. -/
structure RcStore (A : Type) where
  strong : Nat
  buffer : List A
deriving DecidableEq, Repr

/-- Ownership model of `f_into_iter` applied to a container whose `fmap`
calls the closure on `elems` in order: returns the drained elements, or
an error when `Rc::try_unwrap` would hit the `unreachable!()` arm. -/
def fIntoIterModel (elems : List A) : Except String (List A) :=
  let store : RcStore A := ⟨1, []⟩
  let istore : RcStore A := { store with strong := store.strong + 1 }
  let after := elems.foldl (fun st a => { st with buffer := st.buffer ++ [a] }) istore
  let dropped : RcStore A := { after with strong := after.strong - 1 }
  if dropped.strong = 1 then .ok dropped.buffer else .error "unreachable"

/-- Elements of the resulting iterator, as a list (junk value on the
unreachable arm). -/
def fIntoIterList (elems : List A) : List A :=
  match fIntoIterModel elems with
  | .ok l => l
  | .error _ => []

theorem fIntoIter_foldl (elems : List A) (st : RcStore A) :
    elems.foldl (fun st a => { st with buffer := st.buffer ++ [a] }) st
      = ⟨st.strong, st.buffer ++ elems⟩ := by
  induction elems generalizing st with
  | nil => simp
  | cons a t ih => simp [ih]

theorem fIntoIterModel_ok (elems : List A) :
    fIntoIterModel elems = .ok elems := by
  simp [fIntoIterModel, fIntoIter_foldl]

theorem fIntoIterList_eq (elems : List A) : fIntoIterList elems = elems := by
  simp [fIntoIterList, fIntoIterModel_ok]

/-- Arguments the closure receives from `Option::fmap`, in order. -/
def optionElems (o : Option A) : List A :=
  match o with
  | none => []
  | some a => [a]

/-- Arguments the closure receives from `Result::fmap`, in order. -/
def resultElems (r : Result A E) : List A :=
  match r with
  | .ok a => [a]
  | .err _ => []

/-- Arguments the closure receives from `Vec::fmap`, in order. -/
def vecElems (v : Vec A) : List A := v.data

/-- Arguments the closure receives from `VecDeque::fmap`, in order. -/
def vecDequeElems (v : VecDeque A) : List A := v.data

/-- Arguments the closure receives from `LinkedList::fmap`, in order. -/
def linkedListElems (v : LinkedList A) : List A := v.data

/-- Arguments the closure receives from the `[A; N]` `fmap` loop, in
order. -/
def arrayElems (a : FArray A N) : List A := a.val

/-! ## The `funzip` default method

`Functor::funzip` is `self.f_into_iter().map(|a| f(a)).unzip()`: drain
the container, split each element with `z`, and collect the left and
right components into two fresh containers via `Default + Extend`, which
appends in iteration order. -/

/-- Generic `funzip` on the drained element list. -/
def funzipList (elems : List A) (z : A → L × R) : List L × List R :=
  ((fIntoIterList elems).map z).unzip

/-- Embeds `funzip` for `Vec` (collecting into two `Vec`s). -/
def vecFunzip (v : Vec A) (z : A → L × R) : Vec L × Vec R :=
  let p := funzipList (vecElems v) z
  (⟨p.1⟩, ⟨p.2⟩)

/-- Embeds `funzip` for `VecDeque`. -/
def vecDequeFunzip (v : VecDeque A) (z : A → L × R) : VecDeque L × VecDeque R :=
  let p := funzipList (vecDequeElems v) z
  (⟨p.1⟩, ⟨p.2⟩)

/-- Embeds `funzip` for `LinkedList`. -/
def linkedListFunzip (v : LinkedList A) (z : A → L × R) : LinkedList L × LinkedList R :=
  let p := funzipList (linkedListElems v) z
  (⟨p.1⟩, ⟨p.2⟩)

/-! ## Pure implementations (`src/prelude/src/pure.rs`)

`Option` and `Result` wrap the value directly; `Vec` uses `vec![value]`;
every other container uses `Self::from_iter([value])`, which starts from
the empty container and inserts each element of the one-element iterator
with the container's own insertion operation. -/

/-- Embeds `impl Pure for Option`: `Some(value)`. -/
def optionPure (x : A) : Option A := some x

/-- Embeds `impl Pure for Result<A, E>`: `Ok(value)`. -/
def resultPure (x : A) : Result A E := .ok x

/-- Embeds `impl Pure for Vec`: `vec![value]`. -/
def vecPure (x : A) : Vec A := ⟨[x]⟩

/-- Models `VecDeque::from_iter`: push each element to the back of an
empty deque. -/
def vecDequeFromIter (l : List A) : VecDeque A :=
  ⟨l.foldl (fun acc a => acc ++ [a]) []⟩

/-- Embeds `impl Pure for VecDeque`: `Self::from_iter([value])`. -/
def vecDequePure (x : A) : VecDeque A := vecDequeFromIter [x]

/-- Models `LinkedList::from_iter`: push each element to the back of an
empty list. -/
def linkedListFromIter (l : List A) : LinkedList A :=
  ⟨l.foldl (fun acc a => acc ++ [a]) []⟩

/-- Embeds `impl Pure for LinkedList`: `Self::from_iter([value])`. -/
def linkedListPure (x : A) : LinkedList A := linkedListFromIter [x]

/-- Models `BinaryHeap::from_iter`: push each element onto an empty heap
(only the stored multiset is observable; pushes are recorded in push
order). -/
def binaryHeapFromIter (l : List A) : BinaryHeapM A :=
  ⟨l.foldl (fun acc a => acc ++ [a]) []⟩

/-- Embeds `impl Pure for BinaryHeap`: `Self::from_iter([value])`. -/
def binaryHeapPure (x : A) : BinaryHeapM A := binaryHeapFromIter [x]

/-- Models `HashSet::insert`: adds the element unless already present. -/
def hashSetInsert [DecidableEq A] (s : List A) (a : A) : List A :=
  if a ∈ s then s else s ++ [a]

/-- Models `HashSet::from_iter`: insert each element into an empty set. -/
def hashSetFromIter [DecidableEq A] (l : List A) : HashSetM A :=
  ⟨l.foldl hashSetInsert []⟩

/-- Embeds `impl Pure for HashSet`: `Self::from_iter([value])`. -/
def hashSetPure [DecidableEq A] (x : A) : HashSetM A := hashSetFromIter [x]

/-- Models `BTreeSet::insert` on the sorted element list: ordered insert
that keeps the already-present element on an equal key. -/
def btreeSetInsert [LinearOrder A] : List A → A → List A
  | [], a => [a]
  | b :: t, a =>
    if a < b then a :: b :: t
    else if a = b then b :: t
    else b :: btreeSetInsert t a

/-- Models `BTreeSet::from_iter`: insert each element into an empty set. -/
def btreeSetFromIter [LinearOrder A] (l : List A) : BTreeSetM A :=
  ⟨l.foldl btreeSetInsert []⟩

/-- Embeds `impl Pure for BTreeSet`: `Self::from_iter([value])`. -/
def btreeSetPure [LinearOrder A] (x : A) : BTreeSetM A := btreeSetFromIter [x]

/-- Models `HashMap::insert` on the entry list: when the key is present
the value is overwritten in place (the stored key is kept), otherwise the
new entry is added. -/
def insertAL [DecidableEq K] : List (K × V) → K → V → List (K × V)
  | [], k, v => [(k, v)]
  | p :: t, k, v => if p.1 = k then (p.1, v) :: t else p :: insertAL t k v

/-- Models `BTreeMap::insert` on the sorted entry list: ordered insert
overwriting the value on an equal key. -/
def insertBT [LinearOrder K] : List (K × V) → K → V → List (K × V)
  | [], k, v => [(k, v)]
  | p :: t, k, v =>
    if k < p.1 then (k, v) :: p :: t
    else if k = p.1 then (p.1, v) :: t
    else p :: insertBT t k v

/-- Models `FromIterator` for a map type with insertion operation `ins`:
fold the entries into an empty map, inserting each in iteration order. -/
def collectMap (ins : List (K × V) → K → V → List (K × V))
    (l : List (K × V)) : List (K × V) :=
  l.foldl (fun m p => ins m p.1 p.2) []

/-- Embeds `impl Pure for HashMap`: `Self::from_iter([value])` on a
key/value pair. -/
def hashMapPure [DecidableEq K] (x : K × V) : HashMapM K V :=
  ⟨collectMap insertAL [x]⟩

/-- Embeds `impl Pure for BTreeMap`: `Self::from_iter([value])` on a
key/value pair. -/
def btreeMapPure [LinearOrder K] (x : K × V) : BTreeMapM K V :=
  ⟨collectMap insertBT [x]⟩

/-! ## Bifunctor implementations (`src/lib/src/bifunctor.rs`) -/

/-- Embeds `impl Bifunctor for Result`: `Ok(a) => Ok(left(a))`,
`Err(b) => Err(right(b))`. -/
def resultBimap (r : Result A B) (left : A → C) (right : B → D) : Result C D :=
  match r with
  | .ok a => .ok (left a)
  | .err b => .err (right b)

/-- Instrumented `Result::bimap`: alongside the result, how often `left`
and `right` were invoked; each match arm of the source calls exactly one
of the two functions exactly once. -/
def resultBimapCounting (r : Result A B) (left : A → C) (right : B → D) :
    Result C D × Nat × Nat :=
  match r with
  | .ok a => (.ok (left a), 1, 0)
  | .err b => (.err (right b), 0, 1)

/-- Embeds `impl Bifunctor for HashMap`:
`self.into_iter().map(|(k, v)| (left(k), right(v))).collect()`. -/
def hashMapBimap [DecidableEq K2] (m : HashMapM K V)
    (left : K → K2) (right : V → V2) : HashMapM K2 V2 :=
  ⟨collectMap insertAL (m.entries.map (fun p => (left p.1, right p.2)))⟩

/-- Embeds `impl Bifunctor for BTreeMap`:
`self.into_iter().map(|(k, v)| (left(k), right(v))).collect()`. -/
def btreeMapBimap [LinearOrder K2] (m : BTreeMapM K V)
    (left : K → K2) (right : V → V2) : BTreeMapM K2 V2 :=
  ⟨collectMap insertBT (m.entries.map (fun p => (left p.1, right p.2)))⟩

/-! ## The blanket `lmap`/`rmap` derivations

The `BifunctorLeft`/`BifunctorRight` blanket impls derive `lmap` and
`rmap` once, generically, from any container's `bimap`:
`lmap(self, f) = self.bimap(f, |a| a)` and
`rmap(self, f) = self.bimap(|a| a, f)`.  Each container's `lmap`/`rmap`
below is an instance of the single generic derivation. -/

/-- Generic blanket derivation of `lmap` from a partially applied
`bimap`. -/
def lmapDerive (bimap : (A → C) → (B → B) → T) (f : A → C) : T :=
  bimap f (fun a => a)

/-- Generic blanket derivation of `rmap` from a partially applied
`bimap`. -/
def rmapDerive (bimap : (A → A) → (B → D) → T) (f : B → D) : T :=
  bimap (fun a => a) f

/-- Blanket `lmap` for `Result`. -/
def resultLmap (r : Result A B) (f : A → C) : Result C B :=
  lmapDerive (resultBimap r) f

/-- Blanket `rmap` for `Result`. -/
def resultRmap (r : Result A B) (f : B → D) : Result A D :=
  rmapDerive (resultBimap r) f

/-- Blanket `lmap` for `HashMap`. -/
def hashMapLmap [DecidableEq K2] (m : HashMapM K V) (f : K → K2) : HashMapM K2 V :=
  lmapDerive (hashMapBimap m) f

/-- Blanket `rmap` for `HashMap`. -/
def hashMapRmap [DecidableEq K] (m : HashMapM K V) (f : V → V2) : HashMapM K V2 :=
  rmapDerive (hashMapBimap m) f

/-- Blanket `lmap` for `BTreeMap`. -/
def btreeMapLmap [LinearOrder K2] (m : BTreeMapM K V) (f : K → K2) : BTreeMapM K2 V :=
  lmapDerive (btreeMapBimap m) f

/-- Blanket `rmap` for `BTreeMap`. -/
def btreeMapRmap [LinearOrder K] (m : BTreeMapM K V) (f : V → V2) : BTreeMapM K V2 :=
  rmapDerive (btreeMapBimap m) f

/-! ## Association-list observations for the map models -/

/-- Value stored under key `c` in an entry list (first matching entry). -/
def lookupAL [DecidableEq K] (c : K) (m : List (K × V)) : Option V :=
  (m.find? (fun p => p.1 = c)).map Prod.snd

/-- Whether some entry has key `c`. -/
def hasKey [DecidableEq K] (c : K) (m : List (K × V)) : Bool :=
  m.any (fun p => p.1 = c)

/-- Entry list with pairwise distinct keys (well-formedness of both map
models). -/
def keysNodup (m : List (K × V)) : Prop :=
  (m.map Prod.fst).Nodup

/-- Value of the last entry with key `c`, in list order. -/
def lastLookup [DecidableEq K] (c : K) (m : List (K × V)) : Option V :=
  (m.reverse.find? (fun p => p.1 = c)).map Prod.snd

theorem lookupAL_nil [DecidableEq K] (c : K) : lookupAL c ([] : List (K × V)) = none := rfl

theorem lookupAL_cons [DecidableEq K] (c : K) (p : K × V) (t : List (K × V)) :
    lookupAL c (p :: t) = if p.1 = c then some p.2 else lookupAL c t := by
  by_cases h : p.1 = c
  · rw [lookupAL, List.find?_cons_of_pos _ (by simpa using h), if_pos h]
    rfl
  · rw [lookupAL, List.find?_cons_of_neg _ (by simpa using h), if_neg h]
    rfl

theorem hasKey_cons [DecidableEq K] (c : K) (p : K × V) (t : List (K × V)) :
    hasKey c (p :: t) = (decide (p.1 = c) || hasKey c t) := by
  rw [hasKey, List.any_cons]
  rfl

theorem lookupAL_insertAL [DecidableEq K] (m : List (K × V)) (k c : K) (v : V) :
    lookupAL c (insertAL m k v) = if c = k then some v else lookupAL c m := by
  induction m with
  | nil =>
    rw [insertAL, lookupAL_cons, lookupAL_nil]
    by_cases h : c = k
    · rw [if_pos h.symm, if_pos h]
    · rw [if_neg (fun hh => h hh.symm), if_neg h]
  | cons p t ih =>
    by_cases hp : p.1 = k
    · rw [insertAL, if_pos hp, lookupAL_cons, lookupAL_cons]
      by_cases hc : c = k
      · rw [if_pos (hp.trans hc.symm), if_pos hc]
      · have hpc : ¬ (p.1 = c) := fun h => hc (h.symm.trans hp)
        rw [if_neg hpc, if_neg hc, if_neg hpc]
    · rw [insertAL, if_neg hp, lookupAL_cons, lookupAL_cons, ih]
      by_cases hpc : p.1 = c
      · have hck : ¬ (c = k) := fun h => hp (hpc.trans h)
        rw [if_pos hpc, if_neg hck, if_pos hpc]
      · rw [if_neg hpc, if_neg hpc]

theorem hasKey_insertAL [DecidableEq K] (m : List (K × V)) (k c : K) (v : V) :
    hasKey c (insertAL m k v) = (decide (c = k) || hasKey c m) := by
  have hsymm : decide (k = c) = decide (c = k) :=
    decide_eq_decide.mpr ⟨fun h => h.symm, fun h => h.symm⟩
  induction m with
  | nil =>
    rw [insertAL, hasKey_cons]
    rw [show hasKey c ([] : List (K × V)) = false from rfl]
    rw [show (k, v).1 = k from rfl, hsymm]
  | cons p t ih =>
    by_cases hp : p.1 = k
    · rw [insertAL, if_pos hp, hasKey_cons, hasKey_cons]
      rw [show ((p.1, v) : K × V).1 = p.1 from rfl, hp]
      cases hd : decide (c = k) with
      | true =>
        have : k = c := (of_decide_eq_true hd).symm
        rw [decide_eq_true this]
        simp
      | false =>
        have : ¬ (k = c) := fun h => (of_decide_eq_false hd) h.symm
        rw [decide_eq_false this]
        simp
    · rw [insertAL, if_neg hp, hasKey_cons, hasKey_cons, ih]
      cases decide (p.1 = c) <;> cases decide (c = k) <;> simp

theorem length_insertAL_fresh [DecidableEq K] (m : List (K × V)) (k : K) (v : V)
    (hk : hasKey k m = false) : (insertAL m k v).length = m.length + 1 := by
  induction m with
  | nil => simp [insertAL]
  | cons p t ih =>
    rw [hasKey, List.any_cons] at hk
    have hp : ¬ (p.1 = k) := by
      intro h
      simp [h] at hk
    have ht : hasKey k t = false := by
      rcases Bool.or_eq_false_iff.mp hk with ⟨h1, h2⟩
      exact h2
    rw [insertAL, if_neg hp]
    simp [ih ht]

theorem mem_insertAL [DecidableEq K] (m : List (K × V)) (k : K) (v : V)
    (q : K × V) (hq : q ∈ insertAL m k v) : q = (k, v) ∨ q ∈ m := by
  induction m with
  | nil =>
    simp [insertAL] at hq
    exact Or.inl hq
  | cons p t ih =>
    by_cases hp : p.1 = k
    · rw [insertAL, if_pos hp] at hq
      rcases List.mem_cons.mp hq with h | h
      · subst hp
        exact Or.inl (by simpa using h)
      · exact Or.inr (List.mem_cons_of_mem p h)
    · rw [insertAL, if_neg hp] at hq
      rcases List.mem_cons.mp hq with h | h
      · exact Or.inr (List.mem_cons.mpr (Or.inl h))
      · rcases ih h with h2 | h2
        · exact Or.inl h2
        · exact Or.inr (List.mem_cons_of_mem p h2)

theorem lookupAL_insertBT [LinearOrder K] (m : List (K × V)) (k c : K) (v : V) :
    lookupAL c (insertBT m k v) = if c = k then some v else lookupAL c m := by
  induction m with
  | nil =>
    rw [insertBT, lookupAL_cons, lookupAL_nil]
    by_cases h : c = k
    · rw [if_pos h.symm, if_pos h]
    · rw [if_neg (fun hh => h hh.symm), if_neg h]
  | cons p t ih =>
    rcases lt_trichotomy k p.1 with hlt | heq | hgt
    · rw [insertBT, if_pos hlt, lookupAL_cons]
      by_cases hc : c = k
      · rw [if_pos hc.symm, if_pos hc]
      · rw [if_neg (fun hh => hc hh.symm), if_neg hc]
    · have hnlt : ¬ (k < p.1) := by rw [heq]; exact lt_irrefl p.1
      rw [insertBT, if_neg hnlt, if_pos heq, lookupAL_cons, lookupAL_cons]
      rw [show ((p.1, v) : K × V).1 = p.1 from rfl]
      by_cases hc : c = k
      · rw [if_pos (heq ▸ hc.symm ▸ rfl : p.1 = c), if_pos hc]
      · have hpc : ¬ (p.1 = c) := fun h => hc (h.symm.trans heq.symm)
        rw [if_neg hpc, if_neg hc, if_neg hpc]
    · have hnlt : ¬ (k < p.1) := not_lt_of_gt hgt
      have hne : ¬ (k = p.1) := ne_of_gt hgt
      rw [insertBT, if_neg hnlt, if_neg hne, lookupAL_cons, lookupAL_cons, ih]
      by_cases hpc : p.1 = c
      · have hck : ¬ (c = k) := fun h => hne (h.symm.trans hpc.symm)
        rw [if_pos hpc, if_neg hck, if_pos hpc]
      · rw [if_neg hpc, if_neg hpc]

theorem hasKey_insertBT [LinearOrder K] (m : List (K × V)) (k c : K) (v : V) :
    hasKey c (insertBT m k v) = (decide (c = k) || hasKey c m) := by
  have hsymm : decide (k = c) = decide (c = k) :=
    decide_eq_decide.mpr ⟨fun h => h.symm, fun h => h.symm⟩
  induction m with
  | nil =>
    rw [insertBT, hasKey_cons]
    rw [show hasKey c ([] : List (K × V)) = false from rfl]
    rw [show (k, v).1 = k from rfl, hsymm]
  | cons p t ih =>
    rcases lt_trichotomy k p.1 with hlt | heq | hgt
    · rw [insertBT, if_pos hlt, hasKey_cons, hasKey_cons,
        show ((k, v) : K × V).1 = k from rfl, hsymm]
    · have hnlt : ¬ (k < p.1) := by rw [heq]; exact lt_irrefl p.1
      rw [insertBT, if_neg hnlt, if_pos heq, hasKey_cons, hasKey_cons]
      rw [show ((p.1, v) : K × V).1 = p.1 from rfl]
      cases hd : decide (c = k) with
      | true =>
        have hck : c = k := of_decide_eq_true hd
        have : p.1 = c := by rw [hck, heq]
        rw [decide_eq_true this]
        simp
      | false => simp
    · have hnlt : ¬ (k < p.1) := not_lt_of_gt hgt
      have hne : ¬ (k = p.1) := ne_of_gt hgt
      rw [insertBT, if_neg hnlt, if_neg hne, hasKey_cons, hasKey_cons, ih]
      cases decide (p.1 = c) <;> cases decide (c = k) <;> simp

theorem length_insertBT_fresh [LinearOrder K] (m : List (K × V)) (k : K) (v : V)
    (hk : hasKey k m = false) : (insertBT m k v).length = m.length + 1 := by
  induction m with
  | nil => simp [insertBT]
  | cons p t ih =>
    rw [hasKey, List.any_cons] at hk
    rcases Bool.or_eq_false_iff.mp hk with ⟨h1, h2⟩
    have hp : ¬ (p.1 = k) := by
      intro h
      simp [h] at h1
    have hne : ¬ (k = p.1) := fun h => hp h.symm
    rcases lt_trichotomy k p.1 with hlt | heq | hgt
    · simp [insertBT, if_pos hlt]
    · exact absurd heq hne
    · have hnlt : ¬ (k < p.1) := not_lt_of_gt hgt
      rw [insertBT, if_neg hnlt, if_neg hne]
      simp [ih h2]

theorem mem_insertBT [LinearOrder K] (m : List (K × V)) (k : K) (v : V)
    (q : K × V) (hq : q ∈ insertBT m k v) : q = (k, v) ∨ q ∈ m := by
  induction m with
  | nil =>
    simp [insertBT] at hq
    exact Or.inl hq
  | cons p t ih =>
    rcases lt_trichotomy k p.1 with hlt | heq | hgt
    · rw [insertBT, if_pos hlt] at hq
      rcases List.mem_cons.mp hq with h | h
      · exact Or.inl h
      · exact Or.inr h
    · have hnlt : ¬ (k < p.1) := by rw [heq]; exact lt_irrefl p.1
      rw [insertBT, if_neg hnlt, if_pos heq] at hq
      rcases List.mem_cons.mp hq with h | h
      · rw [← heq] at h
        exact Or.inl h
      · exact Or.inr (List.mem_cons_of_mem p h)
    · have hnlt : ¬ (k < p.1) := not_lt_of_gt hgt
      have hne : ¬ (k = p.1) := ne_of_gt hgt
      rw [insertBT, if_neg hnlt, if_neg hne] at hq
      rcases List.mem_cons.mp hq with h | h
      · exact Or.inr (List.mem_cons.mpr (Or.inl h))
      · rcases ih h with h2 | h2
        · exact Or.inl h2
        · exact Or.inr (List.mem_cons_of_mem p h2)

/-! ## Generic collect lemmas

Both map `bimap`s end in `.collect()`, a fold of the target map's insert
over the mapped entries in iteration order.  The lemmas below are stated
for any insertion operation satisfying the overwrite laws proved above,
and are instantiated for both `insertAL` and `insertBT`. -/

theorem lookupAL_collect_gen [DecidableEq K]
    (ins : List (K × V) → K → V → List (K × V))
    (hlaw : ∀ m k v c, lookupAL c (ins m k v) = if c = k then some v else lookupAL c m)
    (l : List (K × V)) (c : K) :
    ∀ m0, lookupAL c (l.foldl (fun m p => ins m p.1 p.2) m0)
      = Option.or (lastLookup c l) (lookupAL c m0) := by
  induction l with
  | nil =>
    intro m0
    simp [lastLookup]
  | cons p t ih =>
    intro m0
    rw [List.foldl_cons, ih, hlaw]
    have hrhs : lastLookup c (p :: t)
        = Option.or (lastLookup c t) (if p.1 = c then some p.2 else none) := by
      rw [lastLookup, lastLookup, List.reverse_cons, List.find?_append]
      cases hft : t.reverse.find? (fun q => decide (q.1 = c)) with
      | some u => simp [Option.or]
      | none =>
        by_cases hc : p.1 = c
        · rw [List.find?_cons_of_pos _ (by simpa using hc), if_pos hc]
          simp [Option.or]
        · rw [List.find?_cons_of_neg _ (by simpa using hc), if_neg hc]
          simp [Option.or]
    rw [hrhs]
    cases hft : lastLookup c t with
    | some u => simp [Option.or]
    | none =>
      rw [Option.none_or, Option.none_or]
      by_cases hc : p.1 = c
      · rw [if_pos hc, if_pos hc.symm]
        simp [Option.or]
      · rw [if_neg hc, if_neg (fun h => hc h.symm)]
        simp [Option.or]

theorem hasKey_collect_gen [DecidableEq K]
    (ins : List (K × V) → K → V → List (K × V))
    (hlaw : ∀ m k v c, hasKey c (ins m k v) = (decide (c = k) || hasKey c m))
    (l : List (K × V)) (c : K) :
    ∀ m0, hasKey c (l.foldl (fun m p => ins m p.1 p.2) m0)
      = ((l.any (fun p => p.1 = c)) || hasKey c m0) := by
  induction l with
  | nil =>
    intro m0
    simp
  | cons p t ih =>
    intro m0
    rw [List.foldl_cons, ih, hlaw, List.any_cons]
    have hsymm : decide (c = p.1) = decide (p.1 = c) :=
      decide_eq_decide.mpr ⟨fun h => h.symm, fun h => h.symm⟩
    rw [hsymm]
    cases decide (p.1 = c) <;> cases t.any (fun p => decide (p.1 = c)) <;> simp

theorem length_collect_gen [DecidableEq K]
    (ins : List (K × V) → K → V → List (K × V))
    (hfresh : ∀ m k v, hasKey k m = false → (ins m k v).length = m.length + 1)
    (hkey : ∀ m k v c, hasKey c (ins m k v) = (decide (c = k) || hasKey c m))
    (l : List (K × V)) :
    ∀ m0, keysNodup l → (∀ p ∈ l, hasKey p.1 m0 = false) →
      (l.foldl (fun m p => ins m p.1 p.2) m0).length = m0.length + l.length := by
  induction l with
  | nil =>
    intro m0 _ _
    simp
  | cons p t ih =>
    intro m0 hnd hdisj
    rw [List.foldl_cons]
    have h0 : hasKey p.1 m0 = false := hdisj p (List.mem_cons_self p t)
    rw [keysNodup, List.map_cons, List.nodup_cons] at hnd
    have hdisj2 : ∀ q ∈ t, hasKey q.1 (ins m0 p.1 p.2) = false := by
      intro q hq
      rw [hkey]
      have hqp : ¬ (q.1 = p.1) := by
        intro h
        exact hnd.1 (h ▸ List.mem_map_of_mem Prod.fst hq)
      rw [decide_eq_false hqp, Bool.false_or]
      exact hdisj q (List.mem_cons_of_mem p hq)
    rw [ih (ins m0 p.1 p.2) hnd.2 hdisj2, hfresh m0 p.1 p.2 h0, List.length_cons]
    omega

theorem mem_collect_gen [DecidableEq K]
    (ins : List (K × V) → K → V → List (K × V))
    (hmem : ∀ m k v q, q ∈ ins m k v → q = (k, v) ∨ q ∈ m)
    (l : List (K × V)) (q : K × V) :
    ∀ m0, q ∈ l.foldl (fun m p => ins m p.1 p.2) m0 → q ∈ l ∨ q ∈ m0 := by
  induction l with
  | nil =>
    intro m0 hq
    exact Or.inr hq
  | cons p t ih =>
    intro m0 hq
    rw [List.foldl_cons] at hq
    rcases ih (ins m0 p.1 p.2) hq with h | h
    · exact Or.inl (List.mem_cons_of_mem p h)
    · rcases hmem m0 p.1 p.2 q h with h2 | h2
      · exact Or.inl (List.mem_cons.mpr (Or.inl (by simpa using h2)))
      · exact Or.inr h2

/-! ## Facts about the map bimaps -/

theorem collect_mapped_lookup [DecidableEq K2]
    (ins : List (K2 × V2) → K2 → V2 → List (K2 × V2))
    (hlaw : ∀ m k v c, lookupAL c (ins m k v) = if c = k then some v else lookupAL c m)
    (entries : List (K × V)) (left : K → K2) (right : V → V2) (c : K2) :
    lookupAL c (collectMap ins (entries.map (fun p => (left p.1, right p.2))))
      = (entries.reverse.find? (fun p => decide (left p.1 = c))).map (fun p => right p.2) := by
  rw [collectMap, lookupAL_collect_gen ins hlaw _ c []]
  rw [show lookupAL c ([] : List (K2 × V2)) = none from rfl, Option.or_none]
  rw [lastLookup, ← List.map_reverse, List.find?_map, Option.map_map]
  rfl

theorem collect_mapped_mem [DecidableEq K2]
    (ins : List (K2 × V2) → K2 → V2 → List (K2 × V2))
    (hmem : ∀ m k v q, q ∈ ins m k v → q = (k, v) ∨ q ∈ m)
    (entries : List (K × V)) (left : K → K2) (right : V → V2) (q : K2 × V2)
    (hq : q ∈ collectMap ins (entries.map (fun p => (left p.1, right p.2)))) :
    ∃ p ∈ entries, q = (left p.1, right p.2) := by
  rw [collectMap] at hq
  rcases mem_collect_gen ins hmem _ q [] hq with h | h
  · rcases List.mem_map.mp h with ⟨p, hp, hpq⟩
    exact ⟨p, hp, hpq.symm⟩
  · exact absurd h (List.not_mem_nil q)

theorem collect_mapped_length [DecidableEq K2]
    (ins : List (K2 × V2) → K2 → V2 → List (K2 × V2))
    (hfresh : ∀ m k v, hasKey k m = false → (ins m k v).length = m.length + 1)
    (hkey : ∀ m k v c, hasKey c (ins m k v) = (decide (c = k) || hasKey c m))
    (entries : List (K × V)) (left : K → K2) (right : V → V2)
    (hnd : keysNodup entries)
    (hinj : ∀ p ∈ entries, ∀ q ∈ entries, left p.1 = left q.1 → p.1 = q.1) :
    (collectMap ins (entries.map (fun p => (left p.1, right p.2)))).length
      = entries.length := by
  have hnd2 : keysNodup (entries.map (fun p => (left p.1, right p.2))) := by
    rw [keysNodup, List.map_map]
    rw [show (Prod.fst ∘ fun p : K × V => (left p.1, right p.2))
        = (left ∘ Prod.fst) from rfl]
    rw [← List.map_map]
    apply List.Nodup.map_on _ hnd
    intro x hx y hy hxy
    rcases List.mem_map.mp hx with ⟨p, hp, hpx⟩
    rcases List.mem_map.mp hy with ⟨q, hq, hqy⟩
    subst hpx
    subst hqy
    exact hinj p hp q hq hxy
  rw [collectMap]
  have hlen := length_collect_gen ins hfresh hkey
    (entries.map (fun p => (left p.1, right p.2))) [] hnd2 (fun p hp => rfl)
  rw [hlen, List.length_map, List.length_nil, Nat.zero_add]

/-! ## Shared facts about the embedded operations -/

theorem arrayFmap_val (a : FArray A N) (f : A → B) :
    (arrayFmap a f).val = a.val.map f := by
  obtain ⟨l, hl⟩ := a
  subst hl
  show (assumeInit l.length (writeLoop f l 0)).getD [] = l.map f
  rw [assumeInit_writeLoop]
  rfl

theorem funzipList_eq (elems : List A) (z : A → L × R) :
    funzipList elems z = (elems.map (fun a => (z a).1), elems.map (fun a => (z a).2)) := by
  rw [funzipList, fIntoIterList_eq, List.unzip_eq_map, List.map_map, List.map_map]
  rfl

/-! ## Claims -/

/-- C1: for every container among the implemented Functor types (Option,
Result, fixed-size array, Vec, VecDeque, LinkedList), mapping with the
identity function returns the container unchanged, with the same structure
and the same values. -/
theorem C1_fmap_identity {A E : Type} {N : Nat} (o : Option A) (r : Result A E)
    (a : FArray A N) (v : Vec A) (d : VecDeque A) (ll : LinkedList A) :
    optionFmap o id = o ∧ resultFmap r id = r ∧ arrayFmap a id = a
      ∧ vecFmap v id = v ∧ vecDequeFmap d id = d ∧ linkedListFmap ll id = ll := by
  refine ⟨?_, ?_, ?_, ?_, ?_, ?_⟩
  · cases o <;> rfl
  · cases r <;> rfl
  · apply Subtype.ext
    rw [arrayFmap_val]
    exact List.map_id a.val
  · cases v with
    | mk l => rw [vecFmap, List.map_id]
  · cases d with
    | mk l => rw [vecDequeFmap, List.map_id]
  · cases ll with
    | mk l => rw [linkedListFmap, List.map_id]

/-- C2: for every container among the implemented Functor types and all
functions f and g, mapping twice equals mapping once with the composed
function g after f. -/
theorem C2_fmap_composition {A B C E : Type} {N : Nat} (o : Option A) (r : Result A E)
    (a : FArray A N) (v : Vec A) (d : VecDeque A) (ll : LinkedList A)
    (f : A → B) (g : B → C) :
    optionFmap (optionFmap o f) g = optionFmap o (g ∘ f)
      ∧ resultFmap (resultFmap r f) g = resultFmap r (g ∘ f)
      ∧ arrayFmap (arrayFmap a f) g = arrayFmap a (g ∘ f)
      ∧ vecFmap (vecFmap v f) g = vecFmap v (g ∘ f)
      ∧ vecDequeFmap (vecDequeFmap d f) g = vecDequeFmap d (g ∘ f)
      ∧ linkedListFmap (linkedListFmap ll f) g = linkedListFmap ll (g ∘ f) := by
  refine ⟨?_, ?_, ?_, ?_, ?_, ?_⟩
  · cases o <;> rfl
  · cases r <;> rfl
  · apply Subtype.ext
    rw [arrayFmap_val, arrayFmap_val, arrayFmap_val, List.map_map]
  · rw [vecFmap, vecFmap, vecFmap, List.map_map]
  · rw [vecDequeFmap, vecDequeFmap, vecDequeFmap, List.map_map]
  · rw [linkedListFmap, linkedListFmap, linkedListFmap, List.map_map]

/-- C3: the fixed-size array fmap writes each of the N output slots exactly
once (the slot indices written are exactly 0..N-1, without repetition),
`assume_init` succeeds only with all slots initialized and yields the
element-wise image under f, and on `[1,2,3,4,5]` with doubling the result
is `[2,4,6,8,10]`. -/
theorem C3_array_fmap_slots {A B : Type} {N : Nat} (a : FArray A N) (f : A → B) :
    (writeLoop f a.val 0).map Prod.fst = List.range N
      ∧ ((writeLoop f a.val 0).map Prod.fst).Nodup
      ∧ assumeInit N (writeLoop f a.val 0) = some (a.val.map f)
      ∧ (arrayFmap a f).val = a.val.map f
      ∧ (arrayFmap (⟨[1, 2, 3, 4, 5], rfl⟩ : FArray Nat 5) (fun x => x * 2)).val
          = [2, 4, 6, 8, 10] := by
  have hfst : (writeLoop f a.val 0).map Prod.fst = List.range N := by
    rw [writeLoop_fst, a.2, List.range_eq_range']
  refine ⟨hfst, ?_, ?_, arrayFmap_val a f, ?_⟩
  · rw [hfst]
    exact List.nodup_range N
  · have h := assumeInit_writeLoop f a.val
    rw [a.2] at h
    exact h
  · rw [arrayFmap_val]
    rfl

/-- C4: for every sequence-like container (Vec, VecDeque, LinkedList,
fixed-size array) fmap preserves the length, applies f to every element
exactly once in iteration order (the instrumented trace of arguments fed
to f equals the element sequence), and the element at every position of
the result is f of the element at the same position of the input. -/
theorem C4_fmap_structure {A B : Type} {N : Nat} (v : Vec A) (d : VecDeque A)
    (ll : LinkedList A) (a : FArray A N) (f : A → B) :
    ((vecFmap v f).data.length = v.data.length
      ∧ (vecFmap v f).data = (mapWithTrace f v.data).1
      ∧ (mapWithTrace f v.data).2 = v.data
      ∧ ∀ i : Nat, (vecFmap v f).data[i]? = (v.data[i]?).map f)
    ∧ ((vecDequeFmap d f).data.length = d.data.length
      ∧ (vecDequeFmap d f).data = (mapWithTrace f d.data).1
      ∧ (mapWithTrace f d.data).2 = d.data
      ∧ ∀ i : Nat, (vecDequeFmap d f).data[i]? = (d.data[i]?).map f)
    ∧ ((linkedListFmap ll f).data.length = ll.data.length
      ∧ (linkedListFmap ll f).data = (mapWithTrace f ll.data).1
      ∧ (mapWithTrace f ll.data).2 = ll.data
      ∧ ∀ i : Nat, (linkedListFmap ll f).data[i]? = (ll.data[i]?).map f)
    ∧ ((arrayFmap a f).val.length = N
      ∧ (writeLoop f a.val 0).map Prod.snd = a.val.map f
      ∧ ∀ i : Nat, (arrayFmap a f).val[i]? = (a.val[i]?).map f) := by
  refine ⟨⟨?_, ?_, ?_, ?_⟩, ⟨?_, ?_, ?_, ?_⟩, ⟨?_, ?_, ?_, ?_⟩, ⟨?_, ?_, ?_⟩⟩
  · exact List.length_map v.data f
  · rw [vecFmap, mapWithTrace_fst]
  · exact mapWithTrace_snd f v.data
  · intro i
    exact List.getElem?_map f v.data i
  · exact List.length_map d.data f
  · rw [vecDequeFmap, mapWithTrace_fst]
  · exact mapWithTrace_snd f d.data
  · intro i
    exact List.getElem?_map f d.data i
  · exact List.length_map ll.data f
  · rw [linkedListFmap, mapWithTrace_fst]
  · exact mapWithTrace_snd f ll.data
  · intro i
    exact List.getElem?_map f ll.data i
  · rw [arrayFmap_val, List.length_map]
    exact a.2
  · exact writeLoop_snd f a.val 0
  · intro i
    rw [arrayFmap_val]
    exact List.getElem?_map f a.val i

/-- C5: bimap on a Result applies only the function for the side that is
present: on Ok(a) it returns Ok(f(a)) and never invokes g (the
instrumented invocation count of the right function is 0), and on Err(b)
it returns Err(g(b)) and never invokes f. -/
theorem C5_result_bimap_independence {A B C D : Type} (x : A) (y : B)
    (f : A → C) (g : B → D) :
    resultBimap (Result.ok x) f g = Result.ok (f x)
      ∧ resultBimapCounting (Result.ok x) f g = (Result.ok (f x), 1, 0)
      ∧ resultBimap (Result.err y) f g = Result.err (g y)
      ∧ resultBimapCounting (Result.err y) f g = (Result.err (g y), 0, 1) :=
  ⟨rfl, rfl, rfl, rfl⟩

/-- C6: Pure produces the minimal single-element instance of each target
container: Some(x) for Option, Ok(x) for Result, the one-element sequence
for Vec, VecDeque and LinkedList, one-element set for HashSet and
BTreeSet, one-element heap for BinaryHeap, and a one-entry mapping for
HashMap and BTreeMap. -/
theorem C6_pure_minimal {A E K V : Type} [DecidableEq A] [LinearOrder A]
    [DecidableEq K] [LinearOrder K] (x : A) (k : K) (v : V) :
    optionPure x = some x
      ∧ (resultPure x : Result A E) = Result.ok x
      ∧ (vecPure x).data = [x]
      ∧ (vecDequePure x).data = [x]
      ∧ (linkedListPure x).data = [x]
      ∧ (binaryHeapPure x).elems = [x]
      ∧ (hashSetPure x).elems = [x]
      ∧ (btreeSetPure x).elems = [x]
      ∧ (hashMapPure (k, v)).entries = [(k, v)]
      ∧ (btreeMapPure (k, v)).entries = [(k, v)] := by
  refine ⟨rfl, rfl, rfl, rfl, rfl, rfl, ?_, ?_, ?_, ?_⟩
  · show (hashSetInsert [] x : List A) = [x]
    rw [hashSetInsert, if_neg (List.not_mem_nil x)]
    rfl
  · rfl
  · rfl
  · rfl

/-- C7: for each two-parameter container (Result, HashMap, BTreeMap), the
generically derived lmap equals bimap with the identity on the right and
rmap equals bimap with the identity on the left. -/
theorem C7_lmap_rmap_derivation {A B C D K V K2 V2 K3 V3 : Type}
    [DecidableEq K2] [DecidableEq K] [LinearOrder K3] [LinearOrder V3]
    (r : Result A B) (f : A → C) (g : B → D)
    (mh : HashMapM K V) (fh : K → K2) (gh : V → V2)
    (mb : BTreeMapM V3 V) (fb : V3 → K3) (gb : V → V2) :
    resultLmap r f = resultBimap r f id
      ∧ resultRmap r g = resultBimap r id g
      ∧ hashMapLmap mh fh = hashMapBimap mh fh id
      ∧ hashMapRmap mh gh = hashMapBimap mh id gh
      ∧ btreeMapLmap mb fb = btreeMapBimap mb fb id
      ∧ btreeMapRmap mb gb = btreeMapBimap mb id gb :=
  ⟨rfl, rfl, rfl, rfl, rfl, rfl⟩

/-- C9: funzip produces two containers of the same shape (length) as
the input, the first holding the left and the second the right component
of every element in order; unzipping [(1,2),(2,4),(3,6)] under the
identity yields [1,2,3] and [2,4,6]. -/
theorem C9_funzip {A L R : Type} (v : Vec A) (d : VecDeque A) (ll : LinkedList A)
    (z : A → L × R) :
    ((vecFunzip v z).1.data = v.data.map (fun a => (z a).1)
      ∧ (vecFunzip v z).2.data = v.data.map (fun a => (z a).2)
      ∧ (vecFunzip v z).1.data.length = v.data.length
      ∧ (vecFunzip v z).2.data.length = v.data.length)
    ∧ ((vecDequeFunzip d z).1.data = d.data.map (fun a => (z a).1)
      ∧ (vecDequeFunzip d z).2.data = d.data.map (fun a => (z a).2)
      ∧ (vecDequeFunzip d z).1.data.length = d.data.length
      ∧ (vecDequeFunzip d z).2.data.length = d.data.length)
    ∧ ((linkedListFunzip ll z).1.data = ll.data.map (fun a => (z a).1)
      ∧ (linkedListFunzip ll z).2.data = ll.data.map (fun a => (z a).2)
      ∧ (linkedListFunzip ll z).1.data.length = ll.data.length
      ∧ (linkedListFunzip ll z).2.data.length = ll.data.length)
    ∧ vecFunzip (⟨[(1, 2), (2, 4), (3, 6)]⟩ : Vec (Nat × Nat)) id
        = (⟨[1, 2, 3]⟩, ⟨[2, 4, 6]⟩) := by
  have hv := funzipList_eq (vecElems v) z
  have hd := funzipList_eq (vecDequeElems d) z
  have hl := funzipList_eq (linkedListElems ll) z
  refine ⟨⟨?_, ?_, ?_, ?_⟩, ⟨?_, ?_, ?_, ?_⟩, ⟨?_, ?_, ?_, ?_⟩, ?_⟩
  · rw [vecFunzip, hv]
    rfl
  · rw [vecFunzip, hv]
    rfl
  · rw [vecFunzip, hv]
    exact List.length_map v.data _
  · rw [vecFunzip, hv]
    exact List.length_map v.data _
  · rw [vecDequeFunzip, hd]
    rfl
  · rw [vecDequeFunzip, hd]
    rfl
  · rw [vecDequeFunzip, hd]
    exact List.length_map d.data _
  · rw [vecDequeFunzip, hd]
    exact List.length_map d.data _
  · rw [linkedListFunzip, hl]
    rfl
  · rw [linkedListFunzip, hl]
    rfl
  · rw [linkedListFunzip, hl]
    exact List.length_map ll.data _
  · rw [linkedListFunzip, hl]
    exact List.length_map ll.data _
  · decide

/-- C10: for every provided Functor implementation, the ownership model of
f_into_iter ends with a unique strong reference, so Rc::try_unwrap
succeeds, the unreachable branch is never taken, and the iterator yields
exactly the container's elements in fmap order. -/
theorem C10_f_into_iter_no_panic {A E : Type} {N : Nat} (o : Option A)
    (r : Result A E) (a : FArray A N) (v : Vec A) (d : VecDeque A)
    (ll : LinkedList A) :
    fIntoIterModel (optionElems o) = Except.ok (optionElems o)
      ∧ fIntoIterModel (resultElems r) = Except.ok (resultElems r)
      ∧ fIntoIterModel (arrayElems a) = Except.ok (arrayElems a)
      ∧ fIntoIterModel (vecElems v) = Except.ok (vecElems v)
      ∧ fIntoIterModel (vecDequeElems d) = Except.ok (vecDequeElems d)
      ∧ fIntoIterModel (linkedListElems ll) = Except.ok (linkedListElems ll) :=
  ⟨fIntoIterModel_ok _, fIntoIterModel_ok _, fIntoIterModel_ok _,
   fIntoIterModel_ok _, fIntoIterModel_ok _, fIntoIterModel_ok _⟩

/-- C8: bimap on HashMap and BTreeMap maps every entry (k, v) to
(left k, right v); the entry count (key-set cardinality) is preserved
when left is injective on the map's keys, and in general the value stored
under an output key c is that of the last entry in the source map's
iteration order whose key maps to c (last-written-wins on collisions). -/
theorem C8_map_bimap {K V K2 V2 K3 V3 K4 V4 : Type} [DecidableEq K2]
    [LinearOrder K3] [LinearOrder K4]
    (mh : HashMapM K V) (left : K → K2) (right : V → V2)
    (mb : BTreeMapM K3 V3) (leftb : K3 → K4) (rightb : V3 → V4)
    (hnd : keysNodup mh.entries)
    (hsort : List.Pairwise (fun p q => p.1 < q.1) mb.entries) :
    (∀ c : K2, lookupAL c (hashMapBimap mh left right).entries
        = (mh.entries.reverse.find? (fun p => decide (left p.1 = c))).map
            (fun p => right p.2))
    ∧ (∀ q ∈ (hashMapBimap mh left right).entries,
        ∃ p ∈ mh.entries, q = (left p.1, right p.2))
    ∧ ((∀ p ∈ mh.entries, ∀ q ∈ mh.entries, left p.1 = left q.1 → p.1 = q.1) →
        (hashMapBimap mh left right).entries.length = mh.entries.length)
    ∧ (∀ c : K4, lookupAL c (btreeMapBimap mb leftb rightb).entries
        = (mb.entries.reverse.find? (fun p => decide (leftb p.1 = c))).map
            (fun p => rightb p.2))
    ∧ (∀ q ∈ (btreeMapBimap mb leftb rightb).entries,
        ∃ p ∈ mb.entries, q = (leftb p.1, rightb p.2))
    ∧ ((∀ p ∈ mb.entries, ∀ q ∈ mb.entries, leftb p.1 = leftb q.1 → p.1 = q.1) →
        (btreeMapBimap mb leftb rightb).entries.length = mb.entries.length) := by
  have hndb : keysNodup mb.entries :=
    List.pairwise_map.mpr (hsort.imp (fun h => ne_of_lt h))
  refine ⟨?_, ?_, ?_, ?_, ?_, ?_⟩
  · intro c
    exact collect_mapped_lookup insertAL (fun m k v c => lookupAL_insertAL m k c v)
      mh.entries left right c
  · intro q hq
    exact collect_mapped_mem insertAL mem_insertAL mh.entries left right q hq
  · intro hinj
    exact collect_mapped_length insertAL length_insertAL_fresh
      (fun m k v c => hasKey_insertAL m k c v) mh.entries left right hnd hinj
  · intro c
    exact collect_mapped_lookup insertBT (fun m k v c => lookupAL_insertBT m k c v)
      mb.entries leftb rightb c
  · intro q hq
    exact collect_mapped_mem insertBT mem_insertBT mb.entries leftb rightb q hq
  · intro hinj
    exact collect_mapped_length insertBT length_insertBT_fresh
      (fun m k v c => hasKey_insertBT m k c v) mb.entries leftb rightb hndb hinj

/-- Witness for C8 at concrete maps: the well-formedness hypotheses hold
for the concrete inputs and the theorem applies there. -/
theorem C8_map_bimap_witness :
    keysNodup ([(1, 10), (2, 20)] : List (Nat × Nat))
    ∧ List.Pairwise (fun p q : Nat × Nat => p.1 < q.1) [(3, 30), (4, 40)]
    ∧ (∀ c : Nat,
        lookupAL c (hashMapBimap (⟨[(1, 10), (2, 20)]⟩ : HashMapM Nat Nat)
            (fun k => k + 1) (fun v => v * 2)).entries
          = (([(1, 10), (2, 20)] : List (Nat × Nat)).reverse.find?
              (fun p => decide (p.1 + 1 = c))).map (fun p => p.2 * 2))
    ∧ (∀ c : Nat,
        lookupAL c (btreeMapBimap (⟨[(3, 30), (4, 40)]⟩ : BTreeMapM Nat Nat)
            (fun k => k % 2) (fun v => v + 7)).entries
          = (([(3, 30), (4, 40)] : List (Nat × Nat)).reverse.find?
              (fun p => decide (p.1 % 2 = c))).map (fun p => p.2 + 7)) := by
  have h := C8_map_bimap (⟨[(1, 10), (2, 20)]⟩ : HashMapM Nat Nat)
    (fun k => k + 1) (fun v => v * 2)
    (⟨[(3, 30), (4, 40)]⟩ : BTreeMapM Nat Nat)
    (fun k => k % 2) (fun v => v + 7)
    (by unfold keysNodup; decide) (by decide)
  exact ⟨by unfold keysNodup; decide, by decide, h.1, h.2.2.2.1⟩

end Higher
